import Mathlib

/-
Verification of the Backend repository's retrieval-augmented chat pipeline:
the word chunkers, embedding ingestion, the two vector-store search paths,
session memory, and the chat orchestration route.

Conventions of the embedding:
* Text is modelled at two levels.  Where a function only manipulates the
  whitespace-delimited word sequence of a text (the ai_chat chunker), the
  text is represented by its word list `List String`, and a chunk by its
  word list; `" ".join(ws).split()` recovers exactly `ws` for the non-empty
  whitespace-free words produced by `str.split()`, so this level is faithful
  for every word-sequence property.  Where character counts matter (the
  Notes ingestion path) text is a `List Char` with Python's `strip`/`split`/
  `join` re-implemented character by character.
* Vector components are rationals `ℚ`; the numeric claims under scrutiny
  (lengths, ordering, ranges, exact score arithmetic) are field-agnostic.
* External collaborators (the Gemini embedding and generation providers,
  the content-safety service, the database distance operator) enter as
  explicit function parameters at the exact call boundary the Python code
  uses.
* A Python function that can raise returns `Except String α`; an HTTP error
  response is an explicit constructor.
* Python lists are values except where a claim is about aliasing; for those
  claims a small heap model (addresses are `Nat` indices) mirrors Python's
  object identity.
-/

namespace Backend

/-! ### ai_chat chunker — `src/ai_chat/app/utils/text_processing.py`, `chunk_text`

The source loop is

    start = 0
    while start < len(words):
        end = min(len(words), start + chunk_size)
        chunk = " ".join(words[start:end])
        chunks.append(chunk)
        if end == len(words):
            break
        start = end - overlap
        if start < 0:
            start = 0

Nothing forces `end - overlap > start`, so the loop need not terminate; it
is embedded with explicit fuel, `none` meaning the fuel ran out. -/

/-- The start of the next window: `start = end - overlap; if start < 0: start = 0`
where `end = min(len(words), start + chunk_size)`.  Truncated `Nat`
subtraction models the clamp of `start` at 0. -/
def nextStart (len size overlap start : Nat) : Nat :=
  min len (start + size) - overlap

/-- The `while start < len(words)` loop of `chunk_text`, one fuel unit per
iteration.  A chunk is represented by its word list (`words[start:end]`). -/
def chunkLoop (words : List String) (size overlap : Nat) :
    Nat → Nat → Option (List (List String))
  | 0, _ => none
  | fuel + 1, start =>
    if start < words.length then
      if min words.length (start + size) = words.length then
        some [(words.drop start).take (min words.length (start + size) - start)]
      else
        match chunkLoop words size overlap fuel
            (min words.length (start + size) - overlap) with
        | none => none
        | some rest =>
            some ((words.drop start).take (min words.length (start + size) - start) :: rest)
    else some []

/-- `chunk_text(text, chunk_size, overlap)` of
`src/ai_chat/app/utils/text_processing.py` on the word list of `text`:
empty / whitespace-only text (no words) yields `[]`; a text of at most
`size` words is returned whole as a single chunk; otherwise the windowed
loop runs (with the given fuel). -/
def chunk_text (fuel : Nat) (words : List String) (size overlap : Nat) :
    Option (List (List String)) :=
  if words = [] then some []
  else if words.length ≤ size then some [words]
  else chunkLoop words size overlap fuel 0

/-- Undo the overlap: keep the first chunk whole and drop the `overlap`
words repeated at the start of each subsequent chunk, then concatenate. -/
def dechunk (overlap : Nat) : List (List String) → List String
  | [] => []
  | c :: rest => c ++ (rest.map (List.drop overlap)).flatten

/-- The chunk count the spec predicts:
`ceil((len(words) − overlap) / (size − overlap))` in natural arithmetic. -/
def specChunkCount (len size overlap : Nat) : Nat :=
  (len - overlap + (size - overlap) - 1) / (size - overlap)

/-! ### Python string primitives (character-level, structurally recursive)

`str.strip()`, `str.split()` (no separator: split on whitespace runs,
dropping empty fields) and `sep.join(...)` re-implemented on `List Char`
so that every definition evaluates inside the kernel. -/

/-- `str.strip()`: drop whitespace from both ends. -/
def pyStrip (s : List Char) : List Char :=
  ((s.dropWhile Char.isWhitespace).reverse.dropWhile Char.isWhitespace).reverse

/-- Worker for `str.split()`: `acc` holds the current word reversed. -/
def pySplitAux : List Char → List Char → List (List Char)
  | [], acc => if acc = [] then [] else [acc.reverse]
  | c :: cs, acc =>
    if c.isWhitespace then
      if acc = [] then pySplitAux cs [] else acc.reverse :: pySplitAux cs []
    else pySplitAux cs (c :: acc)

/-- `str.split()` with no separator: whitespace runs delimit, empty fields
are dropped. -/
def pySplit (s : List Char) : List (List Char) :=
  pySplitAux s []

/-- `sep.join(parts)`. -/
def pyJoin (sep : List Char) : List (List Char) → List Char
  | [] => []
  | [w] => w
  | w :: ws => w ++ sep ++ pyJoin sep ws

/-! ### Notes ingestion — `src/Notes/services/embedding_service.py` -/

/-- `[words[i:i+n] for i in range(0, len(words), n)]` for a step `n ≥ 1`
(the source always passes `n = 500`); fuel `= length` suffices because each
round drops at least one word. -/
def groupWordsAux (n : Nat) : Nat → List (List Char) → List (List (List Char))
  | 0, _ => []
  | _, [] => []
  | fuel + 1, ws => ws.take n :: groupWordsAux n fuel (ws.drop n)

def groupWords (n : Nat) (ws : List (List Char)) : List (List (List Char)) :=
  groupWordsAux n ws.length ws

/-- `chunk_text(text, max_tokens=500)` of `src/Notes/services/embedding_service.py`:
empty or whitespace-only text yields `[]`; otherwise split into words, join
consecutive groups of `max_tokens` words with single spaces, and keep the
non-blank chunks. -/
def notes_chunk_text (text : List Char) (maxTokens : Nat) : List (List Char) :=
  if pyStrip text = [] then []
  else
    ((groupWords maxTokens (pySplit text)).map (pyJoin [' '])).filter
      (fun c => pyStrip c ≠ [])

/-- The `for` loop of `embed_texts_batch`: skip empty/whitespace-only texts,
call the per-text embedder (the external `embed_text` provider call, passed
as `embedOne`) on the rest in order, propagating its failure.  The
rate-limit sleep is I/O with no data effect. -/
def embedTextsBatchLoop (embedOne : List Char → Except String (List ℚ)) :
    List (List Char) → Except String (List (List ℚ))
  | [] => .ok []
  | t :: ts =>
    if pyStrip t = [] then embedTextsBatchLoop embedOne ts
    else
      match embedOne t with
      | .error e => .error e
      | .ok v =>
        match embedTextsBatchLoop embedOne ts with
        | .error e => .error e
        | .ok vs => .ok (v :: vs)

/-- `embed_texts_batch`: the loop inside a try/except that rewraps any
failure as an HTTP 500. -/
def embed_texts_batch (embedOne : List Char → Except String (List ℚ))
    (texts : List (List Char)) : Except String (List (List ℚ)) :=
  match embedTextsBatchLoop embedOne texts with
  | .ok vs => .ok vs
  | .error e => .error ("Batch embedding failed: " ++ e)

/-- A row of the `embeddings` table as built by `store_embeddings_for_source`
(`Embedding(source_id=..., chunk=..., vector=...)`). -/
structure EmbeddingRow where
  sourceId : Nat
  chunk : List Char
  vector : List ℚ
deriving DecidableEq

/-- `store_embeddings_for_source(source, session)`: guard on short text,
chunk, embed (the embedding step — in the source the call
`embed_texts_batch(chunks)` — is the parameter `embedBatch`), then either
silently return `[]` on a count mismatch or commit one row per
(chunk, vector) pair.  The returned list is what is stored; `.error` models
a raised `HTTPException`. -/
def store_embeddings_for_source
    (embedBatch : List (List Char) → Except String (List (List ℚ)))
    (sourceId : Nat) (extractedText : List Char) : Except String (List EmbeddingRow) :=
  if (pyStrip extractedText).length < 10 then .ok []
  else
    let chunks := notes_chunk_text extractedText 500
    if chunks = [] then .ok []
    else
      match embedBatch chunks with
      | .error e => .error ("Failed to store embeddings: " ++ e)
      | .ok vectors =>
        if vectors.length ≠ chunks.length then .ok []
        else .ok ((chunks.zip vectors).map (fun p => ⟨sourceId, p.1, p.2⟩))

/-! ### Association lists: Python `dict` (insertion-ordered, replace in place) -/

def alistGet {α : Type} (k : String) : List (String × α) → Option α
  | [] => none
  | (k', v) :: rest => if k' = k then some v else alistGet k rest

def alistSet {α : Type} (k : String) (v : α) : List (String × α) → List (String × α)
  | [] => [(k, v)]
  | (k', v') :: rest => if k' = k then (k, v) :: rest else (k', v') :: alistSet k v rest

def alistErase {α : Type} (k : String) : List (String × α) → List (String × α)
  | [] => []
  | (k', v') :: rest => if k' = k then rest else (k', v') :: alistErase k rest

/-! ### ai_chat session memory — `src/ai_chat/app/utils/session_memory.py`

A plain dict mapping session_id to an unbounded Python list of `Message`;
no timestamps, no locking, no size limit. -/

structure ACMessage where
  role : String
  content : String
deriving DecidableEq

abbrev ACSessions := List (String × List ACMessage)

/-- `get_history`: `self.sessions.get(session_id, [])` (value view; the
aliasing behaviour of returning the stored object is modelled separately at
the heap level below). -/
def ac_get_history (m : ACSessions) (sid : String) : List ACMessage :=
  (alistGet sid m).getD []

/-- `append_message`: create `[]` on first use, then append `Message(role, content)`. -/
def ac_append_message (m : ACSessions) (sid role content : String) : ACSessions :=
  match alistGet sid m with
  | none => alistSet sid [⟨role, content⟩] m
  | some msgs => alistSet sid (msgs ++ [⟨role, content⟩]) m

/-- A sequence of `append_message` calls for one session. -/
def acAppendAll (m : ACSessions) (sid : String) (items : List (String × String)) : ACSessions :=
  items.foldl (fun acc it => ac_append_message acc sid it.1 it.2) m

/-! ### Notes session memory — `src/Notes/utils/session_memory.py`

`_sessions` is a defaultdict of `deque(maxlen=max_history_per_session)`,
`_session_timestamps` a dict of `datetime`; time is modelled as `Int`.
All operations run under the re-entrant lock, so each is one atomic step. -/

structure NMessage where
  role : String
  content : String
  timestamp : Int
deriving DecidableEq

structure NotesMemory where
  maxHistory : Nat
  cleanupInterval : Int
  sessions : List (String × List NMessage)
  timestamps : List (String × Int)
deriving DecidableEq

/-- `SessionMemory.__init__`: empty maps, configured limits. -/
def freshNotes (maxHistory : Nat) (cleanupInterval : Int) : NotesMemory :=
  ⟨maxHistory, cleanupInterval, [], []⟩

/-- `deque(maxlen=m).append(x)`: the oldest entries beyond `m` fall off the
left. -/
def dequeAppend (m : Nat) (xs : List NMessage) (x : NMessage) : List NMessage :=
  (xs ++ [x]).drop (xs.length + 1 - m)

/-- `add_message`: append to the (defaultdict-created) deque and refresh the
session timestamp. -/
def notes_add_message (m : NotesMemory) (sid role content : String) (now : Int) :
    NotesMemory :=
  { m with
    sessions :=
      alistSet sid (dequeAppend m.maxHistory ((alistGet sid m.sessions).getD []) ⟨role, content, now⟩)
        m.sessions,
    timestamps := alistSet sid now m.timestamps }

/-- `get_history`: refresh the timestamp, then `list(self._sessions[session_id])`
— the defaultdict access materializes an empty deque for an absent id, and
`list(...)` returns a snapshot of the messages (value view; the copy's
freshness is modelled at the heap level below). -/
def notes_get_history (m : NotesMemory) (sid : String) (now : Int) :
    NotesMemory × List NMessage :=
  ({ m with
     sessions := alistSet sid ((alistGet sid m.sessions).getD []) m.sessions,
     timestamps := alistSet sid now m.timestamps },
   (alistGet sid m.sessions).getD [])

/-- `get_session_stats()["total_sessions"]`: `len(self._sessions)`. -/
def notes_total_sessions (m : NotesMemory) : Nat :=
  m.sessions.length

/-- The body of the deletion loop of `cleanup_old_sessions`:
`del self._sessions[session_id]; del self._session_timestamps[session_id]`. -/
def cleanupStep (acc : NotesMemory) (sid : String) : NotesMemory :=
  { acc with
    sessions := alistErase sid acc.sessions,
    timestamps := alistErase sid acc.timestamps }

/-- `cleanup_old_sessions`: collect the ids whose `last_access` is strictly
older than `now - cleanup_interval`, delete each from both maps, return the
count. -/
def notes_cleanup_old_sessions (m : NotesMemory) (now : Int) : NotesMemory × Nat :=
  let dels := (m.timestamps.filter (fun p => decide (p.2 < now - m.cleanupInterval))).map Prod.fst
  (dels.foldl cleanupStep m, dels.length)

/-- The number of entries of an association list carrying key `k` (an
invariant tool; Python dicts always have `keyCount ≤ 1`). -/
def keyCount {α : Type} (k : String) (l : List (String × α)) : Nat :=
  (l.filter (fun p => decide (p.1 = k))).length

/-- A sequence of `add_message` calls for one session. -/
def notesAppendAll (m : NotesMemory) (sid : String) (items : List (String × String))
    (now : Int) : NotesMemory :=
  items.foldl (fun acc it => notes_add_message acc sid it.1 it.2 now) m

/-- The message list the store itself holds for `sid` (value view). -/
def notesHistory (m : NotesMemory) (sid : String) : List NMessage :=
  (alistGet sid m.sessions).getD []

/-! ### Heap model for list aliasing

Python lists are mutable objects; `Heap α` is the store of list objects and
an address is an index into it.  Only the claims about aliasing use this
level. -/

def heapGet {α : Type} (h : List (List α)) (a : Nat) : List α :=
  (h[a]?).getD []

def heapSet {α : Type} (h : List (List α)) (a : Nat) (v : List α) : List (List α) :=
  h.set a v

def heapAlloc {α : Type} (h : List (List α)) (v : List α) : List (List α) × Nat :=
  (h ++ [v], h.length)

/-- `lst.append(x)` through a reference. -/
def refAppend {α : Type} (h : List (List α)) (a : Nat) (x : α) : List (List α) :=
  heapSet h a (heapGet h a ++ [x])

/-- The history a session store observes for `sid` when its dict maps ids to
list addresses. -/
def storedHistory {α : Type} (h : List (List α)) (sessions : List (String × Nat))
    (sid : String) : List α :=
  match alistGet sid sessions with
  | some a => heapGet h a
  | none => []

/-- ai_chat `get_history` at the object level: `self.sessions.get(session_id, [])`
returns the stored list object itself when the session exists — a live
reference — or a fresh empty list otherwise. -/
def ac_get_history_ref (h : List (List ACMessage)) (sessions : List (String × Nat))
    (sid : String) : List (List ACMessage) × Nat :=
  match alistGet sid sessions with
  | some a => (h, a)
  | none => heapAlloc h []

/-- Result of the heap-level Notes `get_history`. -/
structure NotesRefView where
  heap : List (List NMessage)
  sessions : List (String × Nat)
  timestamps : List (String × Int)
  copyAddr : Nat

/-- Notes `get_history` at the object level: refresh the timestamp; the
defaultdict materializes an empty deque for an absent id; `list(...)`
allocates a NEW list object holding a copy of the messages and returns the
copy's address. -/
def notes_get_history_ref (h : List (List NMessage)) (sessions : List (String × Nat))
    (timestamps : List (String × Int)) (sid : String) (now : Int) : NotesRefView :=
  match alistGet sid sessions with
  | some a =>
    ⟨(heapAlloc h (heapGet h a)).1, sessions, alistSet sid now timestamps,
     (heapAlloc h (heapGet h a)).2⟩
  | none =>
    ⟨((h ++ [[]]) ++ [[]]), alistSet sid h.length sessions, alistSet sid now timestamps,
     h.length + 1⟩

/-! ### FAISS vector store — `src/ai_chat/app/utils/faiss_handler.py` -/

/-- Squared Euclidean distance, the metric of `faiss.IndexFlatL2`. -/
def sqDist (u v : List ℚ) : ℚ :=
  ((u.zip v).map (fun p => (p.1 - p.2) ^ 2)).sum

/-- Order on (insertion index, distance) pairs: ascending distance, ties by
ascending insertion index. -/
def distLe (a b : Nat × ℚ) : Prop :=
  a.2 < b.2 ∨ (a.2 = b.2 ∧ a.1 ≤ b.1)

instance : DecidableRel distLe := fun a b => by
  unfold distLe; exact inferInstance

instance : IsTrans (Nat × ℚ) distLe :=
  ⟨fun a b c hab hbc => by
    unfold distLe at *
    rcases hab with h1 | ⟨h1, h1'⟩ <;> rcases hbc with h2 | ⟨h2, h2'⟩
    · exact Or.inl (lt_trans h1 h2)
    · exact Or.inl (h2 ▸ h1)
    · exact Or.inl (h1 ▸ h2)
    · exact Or.inr ⟨h1.trans h2, le_trans h1' h2'⟩⟩

instance : IsTotal (Nat × ℚ) distLe :=
  ⟨fun a b => by
    unfold distLe
    rcases lt_trichotomy a.2 b.2 with h | h | h
    · exact Or.inl (Or.inl h)
    · rcases Nat.le_total a.1 b.1 with h' | h'
      · exact Or.inl (Or.inr ⟨h, h'⟩)
      · exact Or.inr (Or.inr ⟨h.symm, h'⟩)
    · exact Or.inr (Or.inl h)⟩

/-- Modelled from the spec (§4.3, in-memory backend) and the library
contract of `faiss.IndexFlatL2.search`, which is external to this
repository: brute-force squared-Euclidean distances from the query to every
stored vector, the `n` smallest returned in ascending distance order, ties
by insertion index.  (The library's `-1` padding never arises because the
caller passes `n = min(k, ntotal)`.) -/
def flatSearchPairs (vecs : List (List ℚ)) (q : List ℚ) (n : Nat) : List (Nat × ℚ) :=
  (List.insertionSort distLe
    ((List.range vecs.length).map (fun i => (i, sqDist (vecs.getD i []) q)))).take n

/-- The in-memory store: the flat index's vectors plus the parallel
metadata list of `(text, source)` dicts. -/
structure FaissState where
  dimension : Nat
  vectors : List (List ℚ)
  metadata : List (String × String)
deriving DecidableEq

/-- `FaissStore.search(query_embedding, k)`: empty index returns `[]`;
otherwise search the index with `min(k, ntotal)` and keep the hits whose
index is within the metadata list (`idx != -1 and idx < len(self.metadata)`;
the `-1` case cannot arise here since `n ≤ ntotal`), shaped as
`(text, source, distance)` — note the raw L2 distance is returned as the
score. -/
def faissSearch (st : FaissState) (q : List ℚ) (k : Nat) : List (String × String × ℚ) :=
  if st.vectors.length = 0 then []
  else
    (flatSearchPairs st.vectors q (min k st.vectors.length)).filterMap
      (fun p =>
        match st.metadata.get? p.1 with
        | some md => some (md.1, md.2, p.2)
        | none => none)

/-! ### Relational vector search — `semantic_search` in
`src/Notes/services/embedding_service.py` -/

/-- A row of the `embeddings` table. -/
structure DbEmbeddingRow where
  id : Nat
  chunk : String
  sourceId : Nat
  vector : List ℚ
deriving DecidableEq

/-- One element of the `chunks` list `semantic_search` returns. -/
structure SearchChunk where
  id : Nat
  chunk : String
  sourceId : Nat
  score : ℚ
deriving DecidableEq

/-- Python `round(x, 4)`. -/
def round4 (x : ℚ) : ℚ :=
  (round (x * 10000) : ℤ) / 10000

/-- Order on (insertion index, row) pairs for the SQL `ORDER BY
cosine_distance(...)`: ascending distance `dq row.vector` to the query,
ties modelled as the stable insertion order. -/
def rowLe (dq : List ℚ → ℚ) (a b : Nat × DbEmbeddingRow) : Prop :=
  dq a.2.vector < dq b.2.vector ∨ (dq a.2.vector = dq b.2.vector ∧ a.1 ≤ b.1)

instance (dq : List ℚ → ℚ) : DecidableRel (rowLe dq) := fun a b => by
  unfold rowLe; exact inferInstance

instance (dq : List ℚ → ℚ) : IsTrans (Nat × DbEmbeddingRow) (rowLe dq) :=
  ⟨fun a b c hab hbc => by
    unfold rowLe at *
    rcases hab with h1 | ⟨h1, h1'⟩ <;> rcases hbc with h2 | ⟨h2, h2'⟩
    · exact Or.inl (lt_trans h1 h2)
    · exact Or.inl (h2 ▸ h1)
    · exact Or.inl (h1 ▸ h2)
    · exact Or.inr ⟨h1.trans h2, le_trans h1' h2'⟩⟩

instance (dq : List ℚ → ℚ) : IsTotal (Nat × DbEmbeddingRow) (rowLe dq) :=
  ⟨fun a b => by
    unfold rowLe
    rcases lt_trichotomy (dq a.2.vector) (dq b.2.vector) with h | h | h
    · exact Or.inl (Or.inl h)
    · rcases Nat.le_total a.1 b.1 with h' | h'
      · exact Or.inl (Or.inr ⟨h, h'⟩)
      · exact Or.inr (Or.inr ⟨h.symm, h'⟩)
    · exact Or.inr (Or.inl h)⟩

/-- `semantic_search(data, session)` after the query embedding exists: the
database's `cosine_distance(row.vector, query_vector)` is the external
parameter `dq` (the pgvector operator runs inside PostgreSQL); optional
`source_ids` filter, ORDER BY ascending distance LIMIT `top_n`, similarity
scored as `round(1 - distance, 4)`. -/
def semanticSearchChunks (dq : List ℚ → ℚ) (rows : List DbEmbeddingRow)
    (sourceIds : Option (List Nat)) (topN : Nat) : List SearchChunk :=
  let filtered :=
    match sourceIds with
    | some ids => rows.filter (fun (r : DbEmbeddingRow) => ids.contains r.sourceId)
    | none => rows
  ((List.insertionSort (rowLe dq) filtered.enum).take topN).map
    (fun p => ⟨p.2.id, p.2.chunk, p.2.sourceId, round4 (1 - dq p.2.vector)⟩)

/-! ### The chat route — `src/ai_chat/app/routes/chat.py` -/

/-- `" ".join(parts)` on opaque strings. -/
def strJoin (sep : String) : List String → String
  | [] => ""
  | [x] => x
  | x :: xs => x ++ sep ++ strJoin sep xs

/-- `doc[0][:200] + "..."`. -/
def pyTruncate (s : String) : String :=
  String.mk (s.data.take 200) ++ "..."

/-- `RetrievedChunk` of `src/ai_chat/app/models/schemas.py`. -/
structure RetrievedChunk where
  text : String
  source : String
  score : ℚ
deriving DecidableEq

/-- The HTTP outcome of the `/chat` route: a `ChatResponse` or a raised
`HTTPException`. -/
inductive ChatOutcome
  | response (answer : String) (mode : String) (retrievedChunks : Option (List RetrievedChunk))
  | httpError (code : Nat) (detail : String)
deriving DecidableEq

/-- The `/chat` route (`chat` in `src/ai_chat/app/routes/chat.py`), given its
external collaborators: `harmful` — modelled from the spec: the route
imports `contains_harmful_content` from `app.utils.moderation`, which does
not define it under src; per spec §4.6 it is a harmful-content predicate on
text.  `gen q ctx` is `GeminiHandler.generate_response(q, ctx)`; `embedQ`
is `embed_query`.  `sid` is the resolved session id
(`request.session_id or str(user.user_id)`).  Returns the HTTP outcome and
the session store after the request.  The route body runs in a
`try/except Exception` that rewraps any exception — including the inner
`HTTPException(400, ...)` raises — as a 500 whose detail stringifies the
original. -/
def chat (harmful : String → Bool) (gen : String → Option (List String) → String)
    (embedQ : String → List ℚ) (store : FaissState) (sessions : ACSessions)
    (sid query mode : String) (topK : Nat) : ChatOutcome × ACSessions :=
  if harmful query then
    (.response "Your request cannot be processed due to inappropriate content." mode none,
     sessions)
  else
    let history := ac_get_history sessions sid
    let sessions₁ := ac_append_message sessions sid "user" query
    if mode = "general" then
      let answer := gen (strJoin " " (history.map (fun m => m.content))) none
      let answer :=
        if harmful answer then "Sorry, I cannot provide a response due to content policy."
        else answer
      (.response answer mode none, ac_append_message sessions₁ sid "assistant" answer)
    else if mode = "rag" then
      if store.vectors.length = 0 then
        (.httpError 500
          "Error processing chat request: 400: No documents uploaded yet. Please upload documents first.",
         sessions₁)
      else
        let docs := faissSearch store (embedQ query) topK
        if docs = [] then
          let answer := gen query none
          (.response ("No relevant documents found. Here's a general response:\n\n" ++ answer)
            mode (some []),
           ac_append_message sessions₁ sid "assistant" answer)
        else
          let chunks := docs.map (fun d => RetrievedChunk.mk (pyTruncate d.1) d.2.1 d.2.2)
          let fullContext :=
            history.map (fun m => "user: " ++ m.content)
              ++ (docs.map (fun d => d.1)).map (fun c => "doc: " ++ c)
          let answer := gen query (some fullContext)
          (.response answer mode (some chunks),
           ac_append_message sessions₁ sid "assistant" answer)
    else
      (.httpError 500 ("Error processing chat request: 400: Invalid mode: " ++ mode), sessions₁)

/-! ### SQL construction — how the query vector travels to the database -/

/-- One piece of the SQL text sent to the database: fixed SQL text, or text
produced by interpolating the rendering of a query vector
(`literal_column(f"'{vector_str}'::vector")`). -/
inductive SqlPiece
  | lit (s : String)
  | interpolatedVec (v : List ℚ)
deriving DecidableEq

/-- A statement as handed to the driver: its text (as pieces) and its bound
parameters. -/
structure SqlQuery where
  pieces : List SqlPiece
  params : List (String × List ℚ)
deriving DecidableEq

/-- The SELECT built by `semantic_search` (lines 129-155 of
`src/Notes/services/embedding_service.py`): `vector_str = str(query_vector)`
is interpolated into a `literal_column` that appears twice (select list and
ORDER BY); the vector is bound as no parameter.  The optional `source_ids`
predicate is omitted: it does not carry the vector. -/
def semanticSearchSql (qv : List ℚ) : SqlQuery :=
  ⟨[.lit "SELECT embeddings.id, embeddings.chunk, embeddings.source_id, 1 - cosine_distance(embeddings.vector, '",
    .interpolatedVec qv,
    .lit "'::vector) AS similarity_score FROM embeddings ORDER BY cosine_distance(embeddings.vector, '",
    .interpolatedVec qv,
    .lit "'::vector) LIMIT :top_n"],
   []⟩

/-- The SELECT built by `get_relevant_chunks_for_notebook` (lines 190-246):
the embedding appears in the text only as the placeholder
`:query_embedding` and travels in `params`
(`query.params(query_embedding=query_vector)`). -/
def notebookChunksSql (qv : List ℚ) : SqlQuery :=
  ⟨[.lit "SELECT embeddings.id, embeddings.chunk, embeddings.source_id, sources.filename AS source_name, sources.type AS source_type, 1 - cosine_distance(embeddings.vector, :query_embedding) AS similarity_score FROM embeddings JOIN sources ON sources.id = embeddings.source_id WHERE sources.notebook_id = :notebook_id ORDER BY cosine_distance(embeddings.vector, :query_embedding) LIMIT :top_n"],
   [("query_embedding", qv)]⟩

instance {ε α : Type} [DecidableEq ε] [DecidableEq α] : DecidableEq (Except ε α) := fun x y =>
  match x, y with
  | .ok a, .ok b => if h : a = b then .isTrue (by rw [h]) else .isFalse (by simp [h])
  | .error a, .error b => if h : a = b then .isTrue (by rw [h]) else .isFalse (by simp [h])
  | .ok _, .error _ => .isFalse (by simp)
  | .error _, .ok _ => .isFalse (by simp)

/-! ### Theorems -/

theorem chunkLoop_spec (words : List String) (size v : Nat) (hov : v < size) :
    ∀ fuel start, start + v < words.length → words.length ≤ start + fuel →
      ∃ cs, chunkLoop words size v fuel start = some cs ∧
        dechunk v cs = words.drop start ∧
        (cs.map (List.drop v)).flatten = words.drop (start + v) ∧
        cs.length = (words.length - start - v + (size - v) - 1) / (size - v) := by
  intro fuel
  induction fuel with
  | zero => intro start h1 h2; omega
  | succ fuel ih =>
    intro start h1 h2
    have hlt : start < words.length := by omega
    by_cases he : min words.length (start + size) = words.length
    · -- final window: end == len(words), the loop breaks after this chunk
      have hsz : words.length ≤ start + size := by omega
      have hc : (words.drop start).take (words.length - start) = words.drop start := by
        apply List.take_of_length_le; simp
      refine ⟨[(words.drop start).take (words.length - start)], ?_, ?_, ?_, ?_⟩
      · simp [chunkLoop, hlt, he]
      · simp [dechunk, hc]
      · simp only [List.map_cons, List.map_nil, List.flatten_cons, List.flatten_nil,
          List.append_nil, hc]
        rw [List.drop_drop]
      · simp only [List.length_singleton]
        rw [(show words.length - start - v + (size - v) - 1
              = (words.length - start - v - 1) + (size - v) by omega),
          Nat.add_div_right _ (show 0 < size - v by omega),
          Nat.div_eq_of_lt (by omega)]
    · -- middle window: end < len(words), recurse from end - overlap
      have he' : min words.length (start + size) = start + size := by omega
      have hsz : start + size < words.length := by omega
      obtain ⟨cs', hrun, hdec, hjoin, hcount⟩ :=
        ih (start + size - v) (by omega) (by omega)
      refine ⟨(words.drop start).take size :: cs', ?_, ?_, ?_, ?_⟩
      · simp only [chunkLoop]
        rw [if_pos hlt, he', if_neg (show ¬ start + size = words.length by omega),
          (show start + size - start = size by omega), hrun]
      · simp only [dechunk]
        rw [hjoin, (show start + size - v + v = start + size by omega),
          ← List.drop_drop, List.take_append_drop]
      · simp only [List.map_cons, List.flatten_cons]
        have h5 : (words.drop (start + v)).drop (size - v) = words.drop (start + size) := by
          rw [List.drop_drop]; congr 1; omega
        rw [hjoin, (show start + size - v + v = start + size by omega),
          List.drop_take, List.drop_drop, ← h5, List.take_append_drop]
      · simp only [List.length_cons]
        rw [hcount,
          (show words.length - (start + size - v) - v + (size - v) - 1
            = words.length - start - v - 1 by omega),
          (show words.length - start - v + (size - v) - 1
            = (words.length - start - v - 1) + (size - v) by omega),
          Nat.add_div_right _ (show 0 < size - v by omega)]


/-- C3: for every non-empty word sequence and parameters with
`max_size > overlap ≥ 0`, `chunk_text` covers the text — the first chunk
followed by each later chunk minus its leading `overlap` repeated words
concatenates back to the word sequence — returns the whole text as one
chunk when it has at most `max_size` words, and otherwise produces exactly
`ceil((len(words) − overlap) / (max_size − overlap))` chunks. -/
theorem chunk_text_coverage_count (words : List String) (size overlap : Nat)
    (hw : words ≠ []) (hov : overlap < size) :
    ∃ cs, chunk_text words.length words size overlap = some cs ∧
      dechunk overlap cs = words ∧
      (words.length ≤ size → cs = [words]) ∧
      (size < words.length → cs.length = specChunkCount words.length size overlap) := by
  by_cases hle : words.length ≤ size
  · refine ⟨[words], ?_, ?_, fun _ => rfl, fun h => absurd h (by omega)⟩
    · simp [chunk_text, hw, hle]
    · simp [dechunk]
  · obtain ⟨cs, hrun, hdec, -, hcount⟩ :=
      chunkLoop_spec words size overlap hov words.length 0 (by omega) (by omega)
    refine ⟨cs, ?_, by simpa using hdec, fun h => absurd h hle, fun _ => ?_⟩
    · simp [chunk_text, hw, hle, hrun]
    · rw [hcount]
      unfold specChunkCount
      congr 1

/-- Witness for C3 at words = ["a","b","c"], max_size 2, overlap 1. -/
theorem chunk_text_coverage_count_witness :
    ∃ cs, chunk_text 3 ["a", "b", "c"] 2 1 = some cs ∧
      dechunk 1 cs = ["a", "b", "c"] ∧
      (3 ≤ 2 → cs = [["a", "b", "c"]]) ∧
      (2 < 3 → cs.length = specChunkCount 3 2 1) :=
  chunk_text_coverage_count ["a", "b", "c"] 2 1 (by decide) (by decide)

/-- C4 (amended): for `max_size ≥ 1` the chunk operation terminates when
`overlap < max_size` (the step `max_size − overlap` is then at least 1) or
when the text fits in one window; but there is no clamp of the step to at
least 1 — only the start is clamped at 0 — so when `overlap ≥ max_size` and
the text is longer than one window the window start never advances and the
source loop runs forever (every fuel bound is exhausted). -/
theorem chunk_text_progress (words : List String) (size overlap : Nat) (hs : 1 ≤ size) :
    (overlap < size ∨ words.length ≤ size →
      ∃ cs, chunk_text words.length words size overlap = some cs) ∧
    (size ≤ overlap → size < words.length →
      ∀ fuel, chunkLoop words size overlap fuel 0 = none) := by
  constructor
  · intro hcase
    by_cases hw : words = []
    · exact ⟨[], by simp [chunk_text, hw]⟩
    · by_cases hle : words.length ≤ size
      · exact ⟨[words], by simp [chunk_text, hw, hle]⟩
      · have hov : overlap < size := by
          rcases hcase with h | h
          · exact h
          · omega
        obtain ⟨cs, hrun, -, -, -⟩ :=
          chunkLoop_spec words size overlap hov words.length 0 (by omega) (by omega)
        exact ⟨cs, by simp [chunk_text, hw, hle, hrun]⟩
  · intro hvs hlen fuel
    induction fuel with
    | zero => rfl
    | succ fuel ih =>
      have h0 : (0 : Nat) < words.length := by omega
      have hmin : min words.length (0 + size) = size := by omega
      simp only [chunkLoop]
      rw [if_pos h0, hmin, if_neg (show ¬ size = words.length by omega),
        (show size - overlap = 0 by omega), ih]

/-- Counterexample to C4 as stated: with `chunk_size = 1`, `overlap = 1`
and three words the next window start equals the previous one (no forward
progress of at least one word), and the loop exhausts e.g. 40 fuel
(`chunk_text` returns no result). -/
theorem chunk_text_no_progress_cex :
    nextStart 3 1 1 0 = 0 ∧ chunk_text 40 ["a", "b", "c"] 1 1 = none := by decide

/-- Witness for C4 (amended) at words = ["a","b","c"], max_size 1, overlap 1. -/
theorem chunk_text_progress_witness :
    (1 < 1 ∨ (["a", "b", "c"] : List String).length ≤ 1 →
      ∃ cs, chunk_text (["a", "b", "c"] : List String).length ["a", "b", "c"] 1 1 = some cs) ∧
    (1 ≤ 1 → 1 < (["a", "b", "c"] : List String).length →
      ∀ fuel, chunkLoop ["a", "b", "c"] 1 1 fuel 0 = none) :=
  chunk_text_progress ["a", "b", "c"] 1 1 (by decide)


/-- C1 (amended): when the extracted text passes the length guard and
yields at least one chunk, and the embedding step returns a number of
vectors different from the number of chunks, `store_embeddings_for_source`
stores zero chunks — but it raises no error at all: it logs the mismatch
and returns an empty list (there is no `ChunkMismatch` exception in the
code). -/
theorem store_embeddings_mismatch (sourceId : Nat) (text : List Char)
    (vs : List (List ℚ))
    (h10 : ¬ (pyStrip text).length < 10)
    (hch : notes_chunk_text text 500 ≠ [])
    (hvc : vs.length ≠ (notes_chunk_text text 500).length) :
    store_embeddings_for_source (fun _ => .ok vs) sourceId text = .ok [] := by
  unfold store_embeddings_for_source
  rw [if_neg h10]
  simp only [if_neg hch, if_pos hvc]

/-- Counterexample to C1 as stated: a source text yielding one chunk for
which the embedding step returns zero vectors makes ingestion return the
normal (non-error) value `Except.ok []` — nothing is raised. -/
theorem store_embeddings_mismatch_cex :
    store_embeddings_for_source (fun _ => .ok []) 1 "0123456789 ab".toList
      = .ok ([] : List EmbeddingRow) ∧
    notes_chunk_text "0123456789 ab".toList 500 ≠ [] := by decide

/-- Witness for C1 (amended) at the same concrete source text. -/
theorem store_embeddings_mismatch_witness :
    store_embeddings_for_source (fun _ => .ok []) 1 "0123456789 ab".toList = .ok [] :=
  store_embeddings_mismatch 1 "0123456789 ab".toList [] (by decide) (by decide) (by decide)


/-! #### Association-list lemmas -/

theorem alistGet_set_self {α : Type} (k : String) (v : α) (l : List (String × α)) :
    alistGet k (alistSet k v l) = some v := by
  induction l with
  | nil => simp [alistSet, alistGet]
  | cons p rest ih =>
    obtain ⟨k', v'⟩ := p
    by_cases h : k' = k
    · simp [alistSet, alistGet, h]
    · simp [alistSet, alistGet, h, ih]

theorem alistGet_set_ne {α : Type} {k k' : String} (v : α) (l : List (String × α))
    (h : k ≠ k') : alistGet k' (alistSet k v l) = alistGet k' l := by
  induction l with
  | nil => simp [alistSet, alistGet, h]
  | cons p rest ih =>
    obtain ⟨a, b⟩ := p
    by_cases ha : a = k
    · subst ha
      simp [alistSet, alistGet, h]
    · simp [alistSet, alistGet, ha, ih]

theorem alistSet_length_of_none {α : Type} (k : String) (v : α) (l : List (String × α))
    (h : alistGet k l = none) : (alistSet k v l).length = l.length + 1 := by
  induction l with
  | nil => rfl
  | cons p rest ih =>
    obtain ⟨a, b⟩ := p
    by_cases ha : a = k
    · simp [alistGet, ha] at h
    · simp only [alistGet, if_neg ha] at h
      simp [alistSet, ha, ih h]

theorem mem_alistSet_self {α : Type} (k : String) (v : α) (l : List (String × α)) :
    (k, v) ∈ alistSet k v l := by
  induction l with
  | nil => simp [alistSet]
  | cons p rest ih =>
    obtain ⟨a, b⟩ := p
    by_cases ha : a = k
    · simp [alistSet, ha]
    · simp [alistSet, ha]
      right
      exact ih

theorem alistGet_none_iff_keyCount {α : Type} (k : String) (l : List (String × α)) :
    alistGet k l = none ↔ keyCount k l = 0 := by
  induction l with
  | nil => simp [alistGet, keyCount]
  | cons p rest ih =>
    obtain ⟨a, b⟩ := p
    by_cases ha : a = k
    · simp [alistGet, keyCount, List.filter_cons, ha]
    · simpa [alistGet, keyCount, List.filter_cons, ha] using ih

theorem keyCount_set {α : Type} (k : String) (v : α) (l : List (String × α))
    (h : alistGet k l = none) : keyCount k (alistSet k v l) = 1 := by
  induction l with
  | nil => simp [alistSet, keyCount, List.filter_cons]
  | cons p rest ih =>
    obtain ⟨a, b⟩ := p
    by_cases ha : a = k
    · simp [alistGet, ha] at h
    · simp only [alistGet, if_neg ha] at h
      simp [alistSet, keyCount, List.filter_cons, ha] at ih ⊢
      exact ih h

theorem keyCount_erase_le {α : Type} (k k' : String) (l : List (String × α)) :
    keyCount k (alistErase k' l) ≤ keyCount k l := by
  induction l with
  | nil => simp [alistErase]
  | cons p rest ih =>
    obtain ⟨a, b⟩ := p
    simp only [keyCount] at ih ⊢
    by_cases ha : a = k'
    · rw [alistErase, if_pos ha]
      by_cases hk : a = k <;> simp [List.filter_cons, hk]
    · rw [alistErase, if_neg ha]
      by_cases hk : a = k <;> simp [List.filter_cons, hk] <;> omega

theorem keyCount_erase_self {α : Type} (k : String) (l : List (String × α)) :
    keyCount k (alistErase k l) = keyCount k l - 1 := by
  induction l with
  | nil => simp [alistErase, keyCount]
  | cons p rest ih =>
    obtain ⟨a, b⟩ := p
    simp only [keyCount] at ih ⊢
    by_cases ha : a = k
    · rw [alistErase, if_pos ha]
      simp [List.filter_cons, ha]
    · rw [alistErase, if_neg ha]
      simp only [List.filter_cons]
      rw [if_neg (by simpa using ha), if_neg (by simpa using ha)]
      exact ih

/-! #### Cleanup-fold lemmas -/

theorem cleanup_fold_keyCount_zero (sid : String) (dels : List String) :
    ∀ acc : NotesMemory, keyCount sid acc.sessions = 0 →
      keyCount sid ((dels.foldl cleanupStep acc)).sessions = 0 := by
  induction dels with
  | nil => intro acc h; exact h
  | cons d rest ih =>
    intro acc h
    refine ih (cleanupStep acc d) ?_
    have := keyCount_erase_le sid d acc.sessions
    simp only [cleanupStep]
    omega

theorem cleanup_fold_keyCount (sid : String) (dels : List String) :
    ∀ acc : NotesMemory, keyCount sid acc.sessions ≤ 1 → sid ∈ dels →
      keyCount sid ((dels.foldl cleanupStep acc)).sessions = 0 := by
  induction dels with
  | nil => intro _ _ h; cases h
  | cons d rest ih =>
    intro acc hle hmem
    by_cases hd : d = sid
    · subst hd
      have hz : keyCount d (cleanupStep acc d).sessions = 0 := by
        have := keyCount_erase_self d acc.sessions
        simp only [cleanupStep]
        omega
      exact cleanup_fold_keyCount_zero d rest (cleanupStep acc d) hz
    · have hmem' : sid ∈ rest := by
        rcases List.mem_cons.1 hmem with h | h
        · exact absurd h.symm hd
        · exact h
      refine ih (cleanupStep acc d) ?_ hmem'
      have := keyCount_erase_le sid d acc.sessions
      simp only [cleanupStep]
      omega

/-! #### C10: get_history on an absent session id -/

/-- C10: for an id with no session, `get_history` is not read-only: it
returns `[]` but creates the session entry, records `last_activity = now`,
bumps `total_sessions` by one, and the id is later removed by a TTL sweep
whose cutoff passes `now`. -/
theorem get_history_creates_session (m : NotesMemory) (sid : String) (now now' : Int)
    (habs : alistGet sid m.sessions = none) :
    (notes_get_history m sid now).2 = [] ∧
    alistGet sid (notes_get_history m sid now).1.sessions = some [] ∧
    alistGet sid (notes_get_history m sid now).1.timestamps = some now ∧
    notes_total_sessions (notes_get_history m sid now).1 = notes_total_sessions m + 1 ∧
    (now < now' - m.cleanupInterval →
      alistGet sid ((notes_cleanup_old_sessions (notes_get_history m sid now).1 now').1).sessions
        = none) := by
  refine ⟨by simp [notes_get_history, habs], ?_, ?_, ?_, ?_⟩
  · simp [notes_get_history, habs, alistGet_set_self]
  · simp [notes_get_history, alistGet_set_self]
  · simp [notes_get_history, notes_total_sessions, alistSet_length_of_none _ _ _ habs]
  · intro hlt
    rw [alistGet_none_iff_keyCount]
    simp only [notes_cleanup_old_sessions]
    apply cleanup_fold_keyCount
    · simp only [notes_get_history, habs, Option.getD_none]
      exact le_of_eq (keyCount_set sid [] m.sessions habs)
    · refine List.mem_map.2 ⟨(sid, now), List.mem_filter.2 ⟨?_, ?_⟩, rfl⟩
      · exact mem_alistSet_self sid now m.timestamps
      · simpa [notes_get_history] using hlt

/-- Witness for C10: a fresh store, session id "s", `get_history` at time 0,
sweep at time 100 with a 24-unit TTL. -/
theorem get_history_creates_session_witness :
    (notes_get_history (freshNotes 50 24) "s" 0).2 = [] ∧
    alistGet "s" (notes_get_history (freshNotes 50 24) "s" 0).1.sessions = some [] ∧
    alistGet "s" (notes_get_history (freshNotes 50 24) "s" 0).1.timestamps = some 0 ∧
    notes_total_sessions (notes_get_history (freshNotes 50 24) "s" 0).1
      = notes_total_sessions (freshNotes 50 24) + 1 ∧
    ((0 : Int) < 100 - (freshNotes 50 24).cleanupInterval →
      alistGet "s"
          ((notes_cleanup_old_sessions (notes_get_history (freshNotes 50 24) "s" 0).1 100).1).sessions
        = none) :=
  get_history_creates_session (freshNotes 50 24) "s" 0 100 (by decide)

/-! #### Session-memory bound lemmas -/

theorem length_dequeAppend (m : Nat) (xs : List NMessage) (x : NMessage) :
    (dequeAppend m xs x).length = min (xs.length + 1) m := by
  simp [dequeAppend]
  omega

theorem foldl_dequeAppend (mh : Nat) (msgs : List NMessage) :
    ∀ xs : List NMessage, xs.length ≤ mh →
      msgs.foldl (dequeAppend mh) xs = (xs ++ msgs).drop ((xs ++ msgs).length - mh) := by
  induction msgs with
  | nil =>
    intro xs h
    simp only [List.foldl_nil, List.append_nil]
    rw [(show xs.length - mh = 0 by omega), List.drop_zero]
  | cons x rest ih =>
    intro xs h
    have hd : xs.length + 1 - mh ≤ (xs ++ [x]).length := by simp
    have h' : (dequeAppend mh xs x).length ≤ mh := by
      rw [length_dequeAppend]; omega
    rw [List.foldl_cons, ih (dequeAppend mh xs x) h']
    rw [dequeAppend, ← List.drop_append_of_le_length hd, List.drop_drop]
    rw [List.append_assoc, List.singleton_append]
    congr 1
    simp only [List.length_append, List.length_drop, List.length_cons,
      List.length_singleton]
    omega

theorem notesHistory_add (m : NotesMemory) (sid role content : String) (now : Int) :
    notesHistory (notes_add_message m sid role content now) sid
      = dequeAppend m.maxHistory (notesHistory m sid) ⟨role, content, now⟩ := by
  simp [notes_add_message, notesHistory, alistGet_set_self]

theorem notesHistory_appendAll (sid : String) (now : Int) (items : List (String × String)) :
    ∀ m : NotesMemory,
      notesHistory (notesAppendAll m sid items now) sid
        = (items.map (fun it => NMessage.mk it.1 it.2 now)).foldl
            (dequeAppend m.maxHistory) (notesHistory m sid) := by
  induction items with
  | nil => intro m; rfl
  | cons it rest ih =>
    intro m
    rw [List.map_cons, List.foldl_cons, ← notesHistory_add m sid it.1 it.2 now]
    exact ih (notes_add_message m sid it.1 it.2 now)

theorem ac_get_history_append (m : ACSessions) (sid role content : String) :
    ac_get_history (ac_append_message m sid role content) sid
      = ac_get_history m sid ++ [⟨role, content⟩] := by
  unfold ac_append_message
  cases h : alistGet sid m <;> simp [ac_get_history, alistGet_set_self, h]

theorem ac_get_history_appendAll (sid : String) (items : List (String × String)) :
    ∀ m : ACSessions,
      ac_get_history (acAppendAll m sid items) sid
        = ac_get_history m sid ++ items.map (fun it => ACMessage.mk it.1 it.2) := by
  induction items with
  | nil => intro m; simp [acAppendAll]
  | cons it rest ih =>
    intro m
    show ac_get_history (acAppendAll (ac_append_message m sid it.1 it.2) sid rest) sid = _
    rw [ih, ac_get_history_append]
    simp

/-! #### C7: the session history bound -/

/-- C7 (amended): the Notes SessionMemory deque really is bounded —
appending `max_history + 5` messages to one session of a fresh store leaves
exactly the `max_history` most recent ones — but the ai_chat SessionMemory
keeps a plain unbounded list: the same `max_history + 5` appends leave all
`max_history + 5` messages. -/
theorem session_history_bound (mh : Nat) (ci now : Int) (sid : String)
    (items : List (String × String)) (hlen : items.length = mh + 5) :
    notesHistory (notesAppendAll (freshNotes mh ci) sid items now) sid
      = (items.map (fun it => NMessage.mk it.1 it.2 now)).drop 5 ∧
    (notesHistory (notesAppendAll (freshNotes mh ci) sid items now) sid).length = mh ∧
    ac_get_history (acAppendAll [] sid items) sid
      = items.map (fun it => ACMessage.mk it.1 it.2) ∧
    (ac_get_history (acAppendAll [] sid items) sid).length = mh + 5 := by
  have h1 := notesHistory_appendAll sid now items (freshNotes mh ci)
  have h0 : notesHistory (freshNotes mh ci) sid = [] := rfl
  rw [h0, foldl_dequeAppend _ _ [] (by simp)] at h1
  have hmh : (freshNotes mh ci).maxHistory = mh := rfl
  rw [hmh] at h1
  simp only [List.nil_append, List.length_map, hlen] at h1
  have hac := ac_get_history_appendAll sid items []
  have hac0 : ac_get_history [] sid = [] := rfl
  rw [hac0, List.nil_append] at hac
  refine ⟨?_, ?_, hac, ?_⟩
  · rw [h1]; congr 1; omega
  · rw [h1]
    simp only [List.length_drop, List.length_map, hlen]
    omega
  · rw [hac]
    simp [hlen]

/-- Counterexample to C7 as stated: in the ai_chat SessionMemory, 55
appends (`max_history + 5` for the Notes default `max_history = 50`) leave
55 stored messages — the bound `len(messages) ≤ max_history` fails. -/
theorem ac_session_unbounded_cex :
    (ac_get_history (acAppendAll [] "s" (List.replicate 55 ("user", "m"))) "s").length = 55 ∧
    ¬ ((ac_get_history (acAppendAll [] "s" (List.replicate 55 ("user", "m"))) "s").length ≤ 50) := by
  have h := ac_get_history_appendAll "s" (List.replicate 55 ("user", "m")) []
  have h0 : ac_get_history [] "s" = [] := rfl
  rw [h0, List.nil_append] at h
  rw [h]
  simp

/-- Witness for C7 (amended) with `max_history = 2` and seven appends. -/
theorem session_history_bound_witness :
    notesHistory (notesAppendAll (freshNotes 2 24) "s"
        [("user", "a"), ("assistant", "b"), ("user", "c"), ("assistant", "d"),
         ("user", "e"), ("assistant", "f"), ("user", "g")] 7) "s"
      = ([("user", "a"), ("assistant", "b"), ("user", "c"), ("assistant", "d"),
          ("user", "e"), ("assistant", "f"), ("user", "g")].map
          (fun it => NMessage.mk it.1 it.2 7)).drop 5 ∧
    (notesHistory (notesAppendAll (freshNotes 2 24) "s"
        [("user", "a"), ("assistant", "b"), ("user", "c"), ("assistant", "d"),
         ("user", "e"), ("assistant", "f"), ("user", "g")] 7) "s").length = 2 ∧
    ac_get_history (acAppendAll [] "s"
        [("user", "a"), ("assistant", "b"), ("user", "c"), ("assistant", "d"),
         ("user", "e"), ("assistant", "f"), ("user", "g")]) "s"
      = [("user", "a"), ("assistant", "b"), ("user", "c"), ("assistant", "d"),
         ("user", "e"), ("assistant", "f"), ("user", "g")].map
          (fun it => ACMessage.mk it.1 it.2) ∧
    (ac_get_history (acAppendAll [] "s"
        [("user", "a"), ("assistant", "b"), ("user", "c"), ("assistant", "d"),
         ("user", "e"), ("assistant", "f"), ("user", "g")]) "s").length = 2 + 5 :=
  session_history_bound 2 24 7 "s"
    [("user", "a"), ("assistant", "b"), ("user", "c"), ("assistant", "d"),
     ("user", "e"), ("assistant", "f"), ("user", "g")] (by decide)

/-! #### Heap lemmas -/

theorem heapGet_append_lt {α : Type} (h h' : List (List α)) (a : Nat) (ha : a < h.length) :
    heapGet (h ++ h') a = heapGet h a := by
  simp [heapGet, List.getElem?_append_left ha]

theorem heapGet_append_self {α : Type} (h : List (List α)) (v : List α) :
    heapGet (h ++ [v]) h.length = v := by
  simp [heapGet, List.getElem?_append_right (le_refl h.length)]

theorem heapGet_set_ne {α : Type} (h : List (List α)) (a b : Nat) (v : List α)
    (hab : a ≠ b) : heapGet (heapSet h a v) b = heapGet h b := by
  simp [heapGet, heapSet, List.getElem?_set_ne hab]

theorem heapGet_set_self {α : Type} (h : List (List α)) (a : Nat) (v : List α)
    (ha : a < h.length) : heapGet (heapSet h a v) a = v := by
  simp [heapGet, heapSet, List.getElem?_set_eq_of_lt v ha]

/-! #### C8: get_history snapshot vs live reference -/

/-- C8 (amended): the Notes `get_history` refreshes `last_activity` and
returns a fresh snapshot copy — appending through the returned address
leaves every stored session's history unchanged; but the ai_chat
`get_history` returns the stored list object itself: for an existing
session it hands back the stored address over an untouched heap, and
appending through that address is visible in the store. -/
theorem get_history_snapshot_vs_live (h : List (List NMessage))
    (ss : List (String × Nat)) (ts : List (String × Int)) (sid : String) (now : Int)
    (hwf : ∀ s a, alistGet s ss = some a → a < h.length) :
    alistGet sid (notes_get_history_ref h ss ts sid now).timestamps = some now ∧
    (∀ (sid' : String) (x : NMessage),
      storedHistory
          (refAppend (notes_get_history_ref h ss ts sid now).heap
            (notes_get_history_ref h ss ts sid now).copyAddr x)
          (notes_get_history_ref h ss ts sid now).sessions sid'
        = storedHistory h ss sid') ∧
    (∀ (h₂ : List (List ACMessage)) (ss₂ : List (String × Nat)) (a : Nat) (y : ACMessage),
      alistGet sid ss₂ = some a → a < h₂.length →
        ac_get_history_ref h₂ ss₂ sid = (h₂, a) ∧
        storedHistory (refAppend h₂ a y) ss₂ sid = storedHistory h₂ ss₂ sid ++ [y]) := by
  refine ⟨?_, ?_, ?_⟩
  · cases hget : alistGet sid ss <;>
      simp [notes_get_history_ref, hget, alistGet_set_self]
  · intro sid' x
    cases hget : alistGet sid ss with
    | some a =>
      have ha : a < h.length := hwf sid a hget
      simp only [notes_get_history_ref, hget, heapAlloc]
      cases hget' : alistGet sid' ss with
      | none => simp only [storedHistory, hget']
      | some b =>
        have hb : b < h.length := hwf sid' b hget'
        simp only [storedHistory, hget', refAppend]
        rw [heapGet_set_ne _ _ _ _ (by omega),
          heapGet_append_lt _ _ _ hb]
    | none =>
      simp only [notes_get_history_ref, hget]
      by_cases hsid : sid' = sid
      · subst hsid
        simp only [storedHistory, alistGet_set_self, refAppend]
        rw [heapGet_set_ne _ _ _ _ (by omega)]
        have hlt : h.length < (h ++ [[]]).length := by simp
        rw [heapGet_append_lt _ _ _ hlt, heapGet_append_self, hget]
      · simp only [storedHistory, alistGet_set_ne _ _ (fun hk => hsid hk.symm)]
        cases hget' : alistGet sid' ss with
        | none => rfl
        | some b =>
          have hb : b < h.length := hwf sid' b hget'
          have hb' : b < (h ++ [[]]).length := by simp; omega
          simp only [refAppend]
          rw [heapGet_set_ne _ _ _ _ (by omega),
            heapGet_append_lt _ _ _ hb', heapGet_append_lt _ _ _ hb]
  · intro h₂ ss₂ a y hget ha
    refine ⟨by simp [ac_get_history_ref, hget], ?_⟩
    simp only [storedHistory, hget, refAppend]
    rw [heapGet_set_self _ _ _ ha]

/-- Counterexample to C8 as stated: the ai_chat `get_history` hands back the
stored list object (address 0) itself, and appending through it changes the
stored session history — not a snapshot. -/
theorem ac_get_history_live_cex :
    ac_get_history_ref [[ACMessage.mk "user" "hi"]] [("s", 0)] "s"
      = ([[ACMessage.mk "user" "hi"]], 0) ∧
    storedHistory (refAppend [[ACMessage.mk "user" "hi"]] 0 (ACMessage.mk "assistant" "x"))
        [("s", 0)] "s"
      = [ACMessage.mk "user" "hi", ACMessage.mk "assistant" "x"] := by decide

/-- Witness for C8 (amended) on a one-session Notes store and the matching
ai_chat quantifiers. -/
theorem get_history_snapshot_vs_live_witness :
    alistGet "s" (notes_get_history_ref [[NMessage.mk "user" "q" 1]] [("s", 0)]
        [("s", 1)] "s" 5).timestamps = some 5 ∧
    (∀ (sid' : String) (x : NMessage),
      storedHistory
          (refAppend (notes_get_history_ref [[NMessage.mk "user" "q" 1]] [("s", 0)]
              [("s", 1)] "s" 5).heap
            (notes_get_history_ref [[NMessage.mk "user" "q" 1]] [("s", 0)]
              [("s", 1)] "s" 5).copyAddr x)
          (notes_get_history_ref [[NMessage.mk "user" "q" 1]] [("s", 0)]
            [("s", 1)] "s" 5).sessions sid'
        = storedHistory [[NMessage.mk "user" "q" 1]] [("s", 0)] sid') ∧
    (∀ (h₂ : List (List ACMessage)) (ss₂ : List (String × Nat)) (a : Nat) (y : ACMessage),
      alistGet "s" ss₂ = some a → a < h₂.length →
        ac_get_history_ref h₂ ss₂ "s" = (h₂, a) ∧
        storedHistory (refAppend h₂ a y) ss₂ "s" = storedHistory h₂ ss₂ "s" ++ [y]) :=
  get_history_snapshot_vs_live [[NMessage.mk "user" "q" 1]] [("s", 0)] [("s", 1)] "s" 5
    (by
      intro s a hx
      simp only [alistGet] at hx
      by_cases hs : "s" = s
      · rw [if_pos hs] at hx
        have := Option.some.inj hx
        simp only [List.length_singleton]
        omega
      · rw [if_neg hs] at hx
        exact absurd hx (by simp [alistGet]))

/-! #### Vector-search lemmas -/

theorem sqDist_nonneg (u v : List ℚ) : 0 ≤ sqDist u v := by
  unfold sqDist
  apply List.sum_nonneg
  intro x hx
  simp only [List.mem_map] at hx
  obtain ⟨p, -, rfl⟩ := hx
  positivity

theorem flatSearchPairs_sorted (vecs : List (List ℚ)) (q : List ℚ) (n : Nat) :
    List.Pairwise distLe (flatSearchPairs vecs q n) :=
  (List.sorted_insertionSort distLe _).sublist (List.take_sublist n _)

theorem flatSearchPairs_mem (vecs : List (List ℚ)) (q : List ℚ) (n : Nat) :
    ∀ p ∈ flatSearchPairs vecs q n,
      p.1 < vecs.length ∧ p.2 = sqDist (vecs.getD p.1 []) q := by
  intro p hp
  have hp1 : p ∈ List.insertionSort distLe
      ((List.range vecs.length).map (fun i => (i, sqDist (vecs.getD i []) q))) :=
    (List.take_sublist n _).subset hp
  have hp2 : p ∈ (List.range vecs.length).map (fun i => (i, sqDist (vecs.getD i []) q)) :=
    (List.perm_insertionSort distLe _).subset hp1
  obtain ⟨i, hi, rfl⟩ := List.mem_map.1 hp2
  exact ⟨List.mem_range.1 hi, rfl⟩

theorem flatSearchPairs_index_nodup (vecs : List (List ℚ)) (q : List ℚ) (n : Nat) :
    List.Pairwise (fun a b : Nat × ℚ => a.1 ≠ b.1) (flatSearchPairs vecs q n) := by
  have h0 : List.Pairwise (fun a b : Nat × ℚ => a.1 ≠ b.1)
      ((List.range vecs.length).map (fun i => (i, sqDist (vecs.getD i []) q))) := by
    rw [List.pairwise_map]
    exact (List.pairwise_lt_range _).imp (fun h => Nat.ne_of_lt h)
  have h1 := ((List.perm_insertionSort distLe
      ((List.range vecs.length).map (fun i => (i, sqDist (vecs.getD i []) q)))).pairwise_iff
    (fun hxy => Ne.symm hxy)).2 h0
  exact h1.sublist (List.take_sublist n _)

theorem flatSearchPairs_strict (vecs : List (List ℚ)) (q : List ℚ) (n : Nat) :
    List.Pairwise (fun a b : Nat × ℚ => a.2 < b.2 ∨ (a.2 = b.2 ∧ a.1 < b.1))
      (flatSearchPairs vecs q n) := by
  refine ((flatSearchPairs_sorted vecs q n).and (flatSearchPairs_index_nodup vecs q n)).imp ?_
  intro a b h
  obtain ⟨hle, hne⟩ := h
  unfold distLe at hle
  rcases hle with h | ⟨he, hle⟩
  · exact Or.inl h
  · exact Or.inr ⟨he, lt_of_le_of_ne hle hne⟩

theorem pairwise_filterMap {α β : Type} (f : α → Option β) {R : α → α → Prop}
    {S : β → β → Prop}
    (H : ∀ a b, R a b → ∀ c, f a = some c → ∀ d, f b = some d → S c d) :
    ∀ {l : List α}, List.Pairwise R l → List.Pairwise S (l.filterMap f) := by
  intro l hl
  induction hl with
  | nil => simp
  | cons ha hl ih =>
    rename_i a rest
    cases hfa : f a with
    | none => simpa [List.filterMap_cons, hfa] using ih
    | some c =>
      simp only [List.filterMap_cons, hfa]
      refine List.Pairwise.cons ?_ ih
      intro d hd
      obtain ⟨b, hb, hfb⟩ := List.mem_filterMap.1 hd
      exact H a b (ha b hb) c hfa d hfb

theorem faissSearch_length_le (st : FaissState) (q : List ℚ) (k : Nat) :
    (faissSearch st q k).length ≤ k := by
  unfold faissSearch
  split
  · simp
  · refine le_trans (List.length_filterMap_le _ _) ?_
    unfold flatSearchPairs
    simp only [List.length_take]
    omega

theorem faissSearch_pairwise (st : FaissState) (q : List ℚ) (k : Nat) :
    List.Pairwise (fun a b : String × String × ℚ => a.2.2 ≤ b.2.2) (faissSearch st q k) := by
  unfold faissSearch
  split
  · simp
  · refine pairwise_filterMap _ ?_
      (flatSearchPairs_sorted st.vectors q (min k st.vectors.length))
    intro a b hab c hc d hd
    unfold distLe at hab
    cases hma : st.metadata.get? a.1 with
    | none => rw [hma] at hc; cases hc
    | some mda =>
      cases hmb : st.metadata.get? b.1 with
      | none => rw [hmb] at hd; cases hd
      | some mdb =>
        rw [hma] at hc
        rw [hmb] at hd
        obtain rfl := Option.some.inj hc
        obtain rfl := Option.some.inj hd
        show a.2 ≤ b.2
        rcases hab with h | ⟨he, -⟩
        · exact le_of_lt h
        · exact le_of_eq he

theorem faissSearch_scores (st : FaissState) (q : List ℚ) (k : Nat) :
    ∀ t ∈ faissSearch st q k,
      0 ≤ t.2.2 ∧ ∃ i, i < st.vectors.length ∧ t.2.2 = sqDist (st.vectors.getD i []) q := by
  intro t ht
  unfold faissSearch at ht
  by_cases hz : st.vectors.length = 0
  · rw [if_pos hz] at ht; cases ht
  · rw [if_neg hz] at ht
    obtain ⟨p, hp, hf⟩ := List.mem_filterMap.1 ht
    obtain ⟨hi, hd⟩ := flatSearchPairs_mem st.vectors q (min k st.vectors.length) p hp
    cases hm : st.metadata.get? p.1 with
    | none => rw [hm] at hf; cases hf
    | some md =>
      rw [hm] at hf
      obtain rfl := Option.some.inj hf
      exact ⟨hd ▸ sqDist_nonneg _ _, p.1, hi, hd⟩

theorem round4_le_round4 {x y : ℚ} (h : x ≤ y) : round4 x ≤ round4 y := by
  unfold round4
  have h2 : round (x * 10000) ≤ round (y * 10000) := by
    rw [round_eq, round_eq]
    exact Int.floor_le_floor (by linarith)
  have h3 : ((round (x * 10000) : ℤ) : ℚ) ≤ ((round (y * 10000) : ℤ) : ℚ) := by
    exact_mod_cast h2
  exact (div_le_div_iff_of_pos_right (by norm_num)).2 h3

theorem round4_bounds {x : ℚ} (h1 : -1 ≤ x) (h2 : x ≤ 1) :
    -1 ≤ round4 x ∧ round4 x ≤ 1 := by
  have hl : round4 (-1 : ℚ) ≤ round4 x := round4_le_round4 h1
  have hr : round4 x ≤ round4 (1 : ℚ) := round4_le_round4 h2
  have e1 : round4 (-1 : ℚ) = -1 := by
    unfold round4
    norm_num [round_eq]
  have e2 : round4 (1 : ℚ) = 1 := by
    unfold round4
    norm_num [round_eq]
  exact ⟨e1 ▸ hl, e2 ▸ hr⟩

theorem semanticSearchChunks_sorted (dq : List ℚ → ℚ) (rows : List DbEmbeddingRow)
    (src : Option (List Nat)) (topN : Nat) :
    List.Pairwise (fun a b : SearchChunk => b.score ≤ a.score)
      (semanticSearchChunks dq rows src topN) := by
  unfold semanticSearchChunks
  rw [List.pairwise_map]
  refine List.Pairwise.imp ?_
    ((List.sorted_insertionSort (rowLe dq) _).sublist (List.take_sublist topN _))
  intro a b h
  unfold rowLe at h
  have hab : dq a.2.vector ≤ dq b.2.vector := by
    rcases h with h | ⟨h, -⟩
    · exact le_of_lt h
    · exact le_of_eq h
  exact round4_le_round4 (by linarith)

theorem semanticSearchChunks_scores (dq : List ℚ → ℚ) (rows : List DbEmbeddingRow)
    (src : Option (List Nat)) (topN : Nat) :
    ∀ c ∈ semanticSearchChunks dq rows src topN,
      ∃ r ∈ rows, c.score = round4 (1 - dq r.vector) := by
  intro c hc
  unfold semanticSearchChunks at hc
  obtain ⟨p, hp, rfl⟩ := List.mem_map.1 hc
  have hp1 := (List.take_sublist topN _).subset hp
  have hp2 := (List.perm_insertionSort (rowLe dq) _).subset hp1
  obtain ⟨i, r⟩ := p
  obtain ⟨hi, hr⟩ := List.mem_enum hp2
  have hrmem : r ∈ (match src with
      | some ids => rows.filter (fun (r : DbEmbeddingRow) => ids.contains r.sourceId)
      | none => rows) := hr ▸ List.getElem_mem hi
  refine ⟨r, ?_, rfl⟩
  rcases src with _ | ids
  · exact hrmem
  · exact List.mem_of_mem_filter hrmem

theorem semanticSearchChunks_length_le (dq : List ℚ → ℚ) (rows : List DbEmbeddingRow)
    (src : Option (List Nat)) (topN : Nat) :
    (semanticSearchChunks dq rows src topN).length ≤ topN := by
  unfold semanticSearchChunks
  simp only [List.length_map, List.length_take]
  omega

theorem semanticSearchChunks_empty_filter (dq : List ℚ → ℚ) (rows : List DbEmbeddingRow)
    (ids : List Nat) (topN : Nat)
    (h : rows.filter (fun (r : DbEmbeddingRow) => ids.contains r.sourceId) = []) :
    semanticSearchChunks dq rows (some ids) topN = [] := by
  unfold semanticSearchChunks
  have h' : rows.filter (fun (r : DbEmbeddingRow) => decide (r.sourceId ∈ ids)) = [] := by
    simpa using h
  simp [h', List.insertionSort]

theorem semanticSearchChunks_empty (dq : List ℚ → ℚ) (topN : Nat) :
    semanticSearchChunks dq [] none topN = [] := by
  simp [semanticSearchChunks, List.insertionSort]

theorem faissSearch_empty (st : FaissState) (q : List ℚ) (k : Nat)
    (h : st.vectors = []) : faissSearch st q k = [] := by
  unfold faissSearch
  rw [if_pos (by simp [h])]

/-! #### C5: search returns at most k, sorted, ties by insertion order -/

/-- C5: both vector-store search paths return at most `k` results in
non-increasing-similarity order (ascending distance) with ties broken by
insertion order, over scores computed directly from the query and the
stored vectors; an empty store or an empty filter match yields `[]`, never
an error. -/
theorem search_at_most_k_sorted (st : FaissState) (q : List ℚ) (k : Nat)
    (dq : List ℚ → ℚ) (rows : List DbEmbeddingRow) (ids : List Nat) (topN : Nat) :
    (faissSearch st q k).length ≤ k ∧
    List.Pairwise (fun a b : String × String × ℚ => a.2.2 ≤ b.2.2) (faissSearch st q k) ∧
    List.Pairwise (fun a b : Nat × ℚ => a.2 < b.2 ∨ (a.2 = b.2 ∧ a.1 < b.1))
      (flatSearchPairs st.vectors q (min k st.vectors.length)) ∧
    (∀ p ∈ flatSearchPairs st.vectors q (min k st.vectors.length),
      p.1 < st.vectors.length ∧ p.2 = sqDist (st.vectors.getD p.1 []) q) ∧
    (st.vectors = [] → faissSearch st q k = []) ∧
    (semanticSearchChunks dq rows (some ids) topN).length ≤ topN ∧
    List.Pairwise (fun a b : SearchChunk => b.score ≤ a.score)
      (semanticSearchChunks dq rows (some ids) topN) ∧
    (rows.filter (fun (r : DbEmbeddingRow) => ids.contains r.sourceId) = [] →
      semanticSearchChunks dq rows (some ids) topN = []) :=
  ⟨faissSearch_length_le st q k, faissSearch_pairwise st q k,
   flatSearchPairs_strict st.vectors q (min k st.vectors.length),
   flatSearchPairs_mem st.vectors q (min k st.vectors.length),
   fun h => faissSearch_empty st q k h,
   semanticSearchChunks_length_le dq rows (some ids) topN,
   semanticSearchChunks_sorted dq rows (some ids) topN,
   fun h => semanticSearchChunks_empty_filter dq rows ids topN h⟩

/-- Witness for C5 on a two-vector store and a concrete relational table. -/
theorem search_at_most_k_sorted_witness :
    (faissSearch (FaissState.mk 768 [[0], [1]] [("t1", "s1"), ("t2", "s2")]) [0] 1).length ≤ 1 ∧
    List.Pairwise (fun a b : String × String × ℚ => a.2.2 ≤ b.2.2)
      (faissSearch (FaissState.mk 768 [[0], [1]] [("t1", "s1"), ("t2", "s2")]) [0] 1) ∧
    List.Pairwise (fun a b : Nat × ℚ => a.2 < b.2 ∨ (a.2 = b.2 ∧ a.1 < b.1))
      (flatSearchPairs (FaissState.mk 768 [[0], [1]] [("t1", "s1"), ("t2", "s2")]).vectors [0]
        (min 1 (FaissState.mk 768 [[0], [1]] [("t1", "s1"), ("t2", "s2")]).vectors.length)) ∧
    (∀ p ∈ flatSearchPairs (FaissState.mk 768 [[0], [1]] [("t1", "s1"), ("t2", "s2")]).vectors [0]
        (min 1 (FaissState.mk 768 [[0], [1]] [("t1", "s1"), ("t2", "s2")]).vectors.length),
      p.1 < (FaissState.mk 768 [[0], [1]] [("t1", "s1"), ("t2", "s2")]).vectors.length ∧
      p.2 = sqDist ((FaissState.mk 768 [[0], [1]] [("t1", "s1"), ("t2", "s2")]).vectors.getD p.1 []) [0]) ∧
    ((FaissState.mk 768 [[0], [1]] [("t1", "s1"), ("t2", "s2")]).vectors = [] →
      faissSearch (FaissState.mk 768 [[0], [1]] [("t1", "s1"), ("t2", "s2")]) [0] 1 = []) ∧
    (semanticSearchChunks (fun _ => 1) [DbEmbeddingRow.mk 1 "c" 2 [5]] (some [3]) 2).length ≤ 2 ∧
    List.Pairwise (fun a b : SearchChunk => b.score ≤ a.score)
      (semanticSearchChunks (fun _ => 1) [DbEmbeddingRow.mk 1 "c" 2 [5]] (some [3]) 2) ∧
    ([DbEmbeddingRow.mk 1 "c" 2 [5]].filter
        (fun (r : DbEmbeddingRow) => [3].contains r.sourceId) = [] →
      semanticSearchChunks (fun _ => 1) [DbEmbeddingRow.mk 1 "c" 2 [5]] (some [3]) 2 = []) :=
  search_at_most_k_sorted (FaissState.mk 768 [[0], [1]] [("t1", "s1"), ("t2", "s2")]) [0] 1
    (fun _ => 1) [DbEmbeddingRow.mk 1 "c" 2 [5]] [3] 2

/-! #### C6: what the score fields actually are -/

/-- C6 (amended): every relational-backend score equals
`round(1 − distance, 4)` for its row's stored vector and lies in [−1, 1]
whenever the database distance operator ranges over [0, 2] (as cosine
distance does); the FAISS backend instead returns the raw squared Euclidean
distance as the score — always ≥ 0, not bounded by 1 and not
1 − cosine distance. -/
theorem search_score_range (dq : List ℚ → ℚ) (rows : List DbEmbeddingRow)
    (src : Option (List Nat)) (topN : Nat) (st : FaissState) (q : List ℚ) (k : Nat)
    (hd : ∀ v, 0 ≤ dq v ∧ dq v ≤ 2) :
    (∀ c ∈ semanticSearchChunks dq rows src topN,
      (-1 ≤ c.score ∧ c.score ≤ 1) ∧ ∃ r ∈ rows, c.score = round4 (1 - dq r.vector)) ∧
    (∀ t ∈ faissSearch st q k,
      0 ≤ t.2.2 ∧ ∃ i, i < st.vectors.length ∧ t.2.2 = sqDist (st.vectors.getD i []) q) := by
  refine ⟨?_, faissSearch_scores st q k⟩
  intro c hc
  obtain ⟨r, hr, hcs⟩ := semanticSearchChunks_scores dq rows src topN c hc
  have h1 := (hd r.vector).1
  have h2 := (hd r.vector).2
  have hb := round4_bounds (show (-1 : ℚ) ≤ 1 - dq r.vector by linarith)
    (show (1 : ℚ) - dq r.vector ≤ 1 by linarith)
  exact ⟨⟨by rw [hcs]; exact hb.1, by rw [hcs]; exact hb.2⟩, r, hr, hcs⟩

/-- Counterexample to C6 as stated: in the FAISS backend a store holding
(0,0) queried with (2,2) returns score 8 — the raw squared Euclidean
distance — which lies outside [−1, 1]. -/
theorem faiss_score_out_of_range_cex :
    faissSearch (FaissState.mk 768 [[0, 0]] [("t", "s")]) [2, 2] 1 = [("t", "s", (8 : ℚ))] ∧
    ¬ ((8 : ℚ) ≤ 1) := by
  constructor
  · norm_num [faissSearch, flatSearchPairs, sqDist, List.insertionSort, List.range,
      List.range.loop, List.filterMap, List.get?]
  · norm_num

/-- Witness for C6 with a unit distance operator and a one-row table. -/
theorem search_score_range_witness :
    (∀ c ∈ semanticSearchChunks (fun _ => 1) [DbEmbeddingRow.mk 1 "c" 2 [5]] none 3,
      (-1 ≤ c.score ∧ c.score ≤ 1) ∧
      ∃ r ∈ [DbEmbeddingRow.mk 1 "c" 2 [5]], c.score = round4 (1 - (fun _ => (1 : ℚ)) r.vector)) ∧
    (∀ t ∈ faissSearch (FaissState.mk 768 [] []) [] 0,
      0 ≤ t.2.2 ∧ ∃ i, i < (FaissState.mk 768 [] []).vectors.length ∧
        t.2.2 = sqDist ((FaissState.mk 768 [] []).vectors.getD i []) []) :=
  search_score_range (fun _ => 1) [DbEmbeddingRow.mk 1 "c" 2 [5]] none 3
    (FaissState.mk 768 [] []) [] 0 (fun _ => ⟨by norm_num, by norm_num⟩)

/-! #### C2: RAG chat against an empty store, and the real fallback branch -/

/-- C2 (amended): a RAG-mode chat request against an empty vector store does
fail — the route raises HTTP 400 ("No documents uploaded yet"), rewrapped by
the route's catch-all as a 500 — after the user query has already been
appended to the session history; the no-relevant-documents fallback runs
only when the store is non-empty yet retrieval returns zero results, and
then the returned reply is prefixed with the notice while the history gets
the user query and the un-prefixed general answer. -/
theorem chat_rag_fallback (harmful : String → Bool)
    (gen : String → Option (List String) → String) (embedQ : String → List ℚ)
    (store : FaissState) (sessions : ACSessions) (sid query : String) (k : Nat)
    (hmod : harmful query = false) :
    (store.vectors = [] →
      chat harmful gen embedQ store sessions sid query "rag" k
        = (.httpError 500
            "Error processing chat request: 400: No documents uploaded yet. Please upload documents first.",
           ac_append_message sessions sid "user" query)) ∧
    (store.vectors ≠ [] → faissSearch store (embedQ query) k = [] →
      chat harmful gen embedQ store sessions sid query "rag" k
        = (.response ("No relevant documents found. Here's a general response:\n\n" ++ gen query none)
            "rag" (some []),
           ac_append_message (ac_append_message sessions sid "user" query) sid "assistant"
             (gen query none))) := by
  constructor
  · intro hempty
    simp [chat, hmod, hempty]
  · intro hne hdocs
    have hlen : ¬ store.vectors.length = 0 := by simpa using hne
    simp [chat, hmod, hlen, hdocs]

/-- Counterexample to C2 as stated: the query "What is the refund policy?"
in RAG mode against an empty vector store yields an HTTP error outcome (and
no reply is produced or appended), not a no-context-prefixed reply. -/
theorem chat_empty_store_error_cex :
    chat (fun _ => false) (fun _ _ => "G") (fun _ => []) (FaissState.mk 768 [] []) []
        "s" "What is the refund policy?" "rag" 5
      = (.httpError 500
          "Error processing chat request: 400: No documents uploaded yet. Please upload documents first.",
         [("s", [ACMessage.mk "user" "What is the refund policy?"])]) := by decide

/-- Witness for C2 (amended): a store whose index holds one vector but whose
metadata list is empty (a mismatched rehydration) makes retrieval return
zero results, exercising the fallback branch. -/
theorem chat_rag_fallback_witness :
    ((FaissState.mk 768 [[0]] []).vectors = [] →
      chat (fun _ => false) (fun _ _ => "G") (fun _ => [0]) (FaissState.mk 768 [[0]] []) []
          "s" "What is the refund policy?" "rag" 5
        = (.httpError 500
            "Error processing chat request: 400: No documents uploaded yet. Please upload documents first.",
           ac_append_message [] "s" "user" "What is the refund policy?")) ∧
    ((FaissState.mk 768 [[0]] []).vectors ≠ [] →
      faissSearch (FaissState.mk 768 [[0]] [])
          ((fun (_ : String) => [(0 : ℚ)]) "What is the refund policy?") 5 = [] →
      chat (fun _ => false) (fun _ _ => "G") (fun _ => [0]) (FaissState.mk 768 [[0]] []) []
          "s" "What is the refund policy?" "rag" 5
        = (.response ("No relevant documents found. Here's a general response:\n\n"
              ++ (fun (_ : String) (_ : Option (List String)) => "G")
                  "What is the refund policy?" none)
            "rag" (some []),
           ac_append_message (ac_append_message [] "s" "user" "What is the refund policy?")
             "s" "assistant"
             ((fun (_ : String) (_ : Option (List String)) => "G")
               "What is the refund policy?" none))) :=
  chat_rag_fallback (fun _ => false) (fun _ _ => "G") (fun _ => [0])
    (FaissState.mk 768 [[0]] []) [] "s" "What is the refund policy?" 5 rfl

/-! #### C9: how the query vector reaches the database -/

/-- C9 (amended): `get_relevant_chunks_for_notebook` sends SQL whose text is
the same for every query vector and carries the vector only in the bound
parameter `query_embedding`; but `semantic_search` interpolates the
vector's rendering into the SQL text (in the select list and the ORDER BY)
and binds nothing, so its SQL text varies with the query vector. -/
theorem query_vector_binding (u v : List ℚ) :
    (notebookChunksSql u).pieces = (notebookChunksSql v).pieces ∧
    (notebookChunksSql u).params = [("query_embedding", u)] ∧
    (semanticSearchSql u).params = [] ∧
    (u ≠ v → (semanticSearchSql u).pieces ≠ (semanticSearchSql v).pieces) := by
  refine ⟨rfl, rfl, rfl, ?_⟩
  intro hne heq
  apply hne
  simp only [semanticSearchSql, List.cons.injEq, SqlPiece.interpolatedVec.injEq,
    and_true, true_and] at heq
  exact heq.1

set_option maxRecDepth 4000 in
/-- Counterexample to C9 as stated: `semantic_search` produces different SQL
text for the query vectors [1] and [2] (the vector is string-interpolated),
while the notebook query's text is identical for both. -/
theorem semantic_search_interpolates_cex :
    (semanticSearchSql [1]).pieces ≠ (semanticSearchSql [2]).pieces ∧
    (semanticSearchSql [1]).params = [] ∧
    (notebookChunksSql [1]).pieces = (notebookChunksSql [2]).pieces := by decide

/-- Witness for C9 (amended) at the vectors [1] and [2]. -/
theorem query_vector_binding_witness :
    (notebookChunksSql [(1 : ℚ)]).pieces = (notebookChunksSql [(2 : ℚ)]).pieces ∧
    (notebookChunksSql [(1 : ℚ)]).params = [("query_embedding", [(1 : ℚ)])] ∧
    (semanticSearchSql [(1 : ℚ)]).params = [] ∧
    ([(1 : ℚ)] ≠ [(2 : ℚ)] →
      (semanticSearchSql [(1 : ℚ)]).pieces ≠ (semanticSearchSql [(2 : ℚ)]).pieces) :=
  query_vector_binding [(1 : ℚ)] [(2 : ℚ)]

end Backend
